import Mathlib

/-!
Verification of the hash40 crate: the Hash40 packed identifier
(CRC32 checksum in bits 0-31, truncated string length in bits 32-39),
its binary and textual encodings, and the label registry.

Strings are modelled as lists of bytes (the UTF-8 byte sequence the Rust
code hashes); `Fin 256` plays the role of `u8`.
-/

set_option maxRecDepth 10000

abbrev Byte := Fin 256

abbrev ByteStr := List Byte

/-! ## CRC-32, IEEE variant (reflected, init 0xFFFFFFFF, xorout 0xFFFFFFFF)

This is the algorithm of `crc::crc32::checksum_ieee` used by
`crc32_with_len` in `private.rs`, given here as the standard bitwise
(table-free) formulation: one bit step shifts the register right and
conditionally folds in the reflected polynomial 0xEDB88320. -/

def step1 (r : Nat) : Nat :=
  if r &&& 1 = 1 then (r >>> 1) ^^^ 0xEDB88320 else r >>> 1

/-- Processing one byte of input is eight bit steps. -/
def byteStep (r : Nat) : Nat := step1^[8] r

/-- One byte-update of the CRC register: fold the byte into the low bits,
then run eight bit steps. -/
def crcUpd (r : Nat) (b : Byte) : Nat := byteStep (r ^^^ b.val)

/-- CRC-32 (IEEE / ISO-HDLC variant) of a byte string. -/
def crc32 (s : ByteStr) : Nat := 0xFFFFFFFF ^^^ s.foldl crcUpd 0xFFFFFFFF

/-! ## CRC-32/CKSUM variant (non-reflected, init 0, xorout 0xFFFFFFFF)

This is the algorithm selected by `Crc::<u32>::new(&CRC_32_CKSUM)` in
`impl.rs`: MSB-first processing with polynomial 0x04C11DB7. -/

def stepM (r : Nat) : Nat :=
  if r &&& 0x80000000 = 0 then (r <<< 1) &&& 0xFFFFFFFF
  else ((r <<< 1) &&& 0xFFFFFFFF) ^^^ 0x04C11DB7

def cksumUpd (r : Nat) (b : Byte) : Nat := stepM^[8] (r ^^^ (b.val <<< 24))

/-- CRC-32/CKSUM of a byte string (init 0x00000000, xorout 0xFFFFFFFF). -/
def crc32Cksum (s : ByteStr) : Nat := 0xFFFFFFFF ^^^ s.foldl cksumUpd 0

/-! ## The Hash40 type -/

/-- `Hash40(pub u64)` from `lib.rs`: a 64-bit backed packed identifier. -/
structure Hash40 where
  val : Nat
deriving DecidableEq, Repr

/-- Modelled from the spec: `algorithm::hash40`, the string-hashing routine of
the `algorithm` module referenced by `lib.rs` but absent from the sources.
Per spec section 4.1 it packs `(len(bytes) as u8 as u64) << 32 | checksum`,
the checksum being the IEEE CRC-32 variant also used by `crc32_with_len`. -/
def algorithm.hash40 (s : ByteStr) : Nat :=
  ((s.length % 256) <<< 32) ||| crc32 s

/-- `Hash40::new` from `lib.rs` (delegates to `algorithm::hash40`). -/
def Hash40.new (s : ByteStr) : Hash40 := ⟨algorithm.hash40 s⟩

/-- The crate-root alias `hash40(string)` for `Hash40::new`. -/
def hash40 (s : ByteStr) : Hash40 := Hash40.new s

/-- `Hash40::crc`: the low 32 bits (`self.0 as u32`). -/
def Hash40.crc (h : Hash40) : Nat := h.val % 2 ^ 32

/-- `Hash40::str_len`: bits 32-39 (`(self.0 >> 32) as u8`). -/
def Hash40.str_len (h : Hash40) : Nat := (h.val >>> 32) % 256

/-- Advancing a CRC register by `n` byte steps with no further input; this
is the polynomial-dependent shift underlying CRC combination. -/
def crcShift (c : Nat) (n : Nat) : Nat := byteStep^[n] c

/-- Modelled from the spec: the CRC linear-combination formula of
`algorithm::hash40_concat` (absent from the sources): the CRC of a
concatenation is the CRC of the suffix xored with the CRC of the prefix
advanced by the length of the suffix. -/
def algorithm.crc32_concat (c1 c2 n : Nat) : Nat := c2 ^^^ crcShift c1 n

/-- Modelled from the spec: `algorithm::hash40_concat` (absent from the
sources). Combines two packed hash values: the two length bytes are added
mod 256 and the CRCs are combined with the correction term, using the
suffix length byte recovered from the second hash. -/
def algorithm.hash40_concat (h1 h2 : Nat) : Nat :=
  ((((h1 >>> 32) % 256 + (h2 >>> 32) % 256) % 256) <<< 32) |||
    algorithm.crc32_concat (h1 % 2 ^ 32) (h2 % 2 ^ 32) ((h2 >>> 32) % 256)

/-- `Hash40::concat` from `lib.rs`. -/
def Hash40.concat (a b : Hash40) : Hash40 := ⟨algorithm.hash40_concat a.val b.val⟩

/-! ## The older revision kept in `impl.rs` and `private.rs` -/

/-- `Hash40::new` as written in `impl.rs`: the CRC-32/CKSUM checksum packed
under the `u8`-truncated length. -/
def ImplRs.Hash40.new (s : ByteStr) : Hash40 :=
  ⟨crc32Cksum s ||| (((s.length % 256)) <<< 32)⟩

/-- `crc32_with_len` from `private.rs`:
`((word.len() as u64) << 32) | (checksum_ieee(word.as_bytes()) as u64)`.
Note the length is NOT truncated to a byte here. -/
def crc32_with_len (s : ByteStr) : Nat :=
  (s.length <<< 32) ||| crc32 s

/-! ## Error taxonomy (`errors.rs` and `std::num::ParseIntError`) -/

/-- The kinds of `std::num::ParseIntError` reachable from
`u64::from_str_radix`. -/
inductive ParseIntError where
  | empty
  | invalidDigit
  | posOverflow
deriving DecidableEq, Repr

/-- `ParseHashError` from `errors.rs`. -/
inductive ParseHashError where
  | missingPrefix
  | parseError (e : ParseIntError)
deriving DecidableEq, Repr

/-- `FromLabelError` from `errors.rs`. -/
inductive FromLabelError where
  | labelNotFound (l : ByteStr)
  | parseError (e : ParseIntError)
deriving DecidableEq, Repr

/-! ## Hexadecimal parsing (`u64::from_str_radix(_, 16)`) -/

/-- `char::to_digit(16)` on a byte: values of `0-9`, `a-f`, `A-F`. -/
def hexDigitVal (c : Byte) : Option Nat :=
  if 48 ≤ c.val ∧ c.val ≤ 57 then some (c.val - 48)
  else if 97 ≤ c.val ∧ c.val ≤ 102 then some (c.val - 87)
  else if 65 ≤ c.val ∧ c.val ≤ 70 then some (c.val - 55)
  else none

/-- The digit-accumulation loop of `from_str_radix`, radix 16, with the
`u64` checked-arithmetic overflow test. -/
def hexFold (acc : Nat) : ByteStr → Except ParseIntError Nat
  | [] => .ok acc
  | c :: rest =>
    match hexDigitVal c with
    | none => .error .invalidDigit
    | some d =>
      if acc * 16 + d < 2 ^ 64 then hexFold (acc * 16 + d) rest
      else .error .posOverflow

/-- `u64::from_str_radix(s, 16)`: empty input is `Empty`; a lone sign is
`InvalidDigit`; a leading `+` is skipped; a leading `-` (invalid for an
unsigned type) reaches the digit loop and fails as `InvalidDigit`. -/
def parseU64Hex : ByteStr → Except ParseIntError Nat
  | [] => .error .empty
  | c :: rest =>
    if c.val = 43 then
      if rest = [] then .error .invalidDigit else hexFold 0 rest
    else if c.val = 45 then
      if rest = [] then .error .invalidDigit else hexFold 0 (c :: rest)
    else hexFold 0 (c :: rest)

/-- `Hash40::from_hex_str` from `lib.rs`: strip the mandatory `0x` marker
(bytes 48, 120), then parse the remainder in base 16. -/
def Hash40.from_hex_str (value : ByteStr) : Except ParseHashError Hash40 :=
  if value.take 2 = ([48, 120] : ByteStr) then
    match parseU64Hex (value.drop 2) with
    | .ok n => .ok ⟨n⟩
    | .error e => .error (.parseError e)
  else .error .missingPrefix

/-! ## The label registry (`label_map.rs`) -/

/-- One insertion into a `bimap::BiHashMap`: any existing pair sharing
either the left or the right value is removed, then the pair is added. -/
def bimapInsert (m : List (Hash40 × ByteStr)) (h : Hash40) (l : ByteStr) :
    List (Hash40 × ByteStr) :=
  (m.filter fun p => decide (p.1 ≠ h ∧ p.2 ≠ l)) ++ [(h, l)]

/-- `BiHashMap::get_by_left`. -/
def bimapGetByLeft (m : List (Hash40 × ByteStr)) (h : Hash40) : Option ByteStr :=
  (m.find? fun p => decide (p.1 = h)).map Prod.snd

/-- `BiHashMap::get_by_right`. -/
def bimapGetByRight (m : List (Hash40 × ByteStr)) (l : ByteStr) : Option Hash40 :=
  (m.find? fun p => decide (p.2 = l)).map Prod.fst

/-- `LabelMap` from `label_map.rs`: a bidirectional hash/label map plus the
`strict` flag (default `false`). -/
structure LabelMap where
  map : List (Hash40 × ByteStr)
  strict : Bool
deriving DecidableEq, Repr

/-- `LabelMap::default()`: empty map, `strict = false`. -/
def LabelMap.default : LabelMap := ⟨[], false⟩

/-- `LabelMap::clear`: empties the map (the `strict` flag is untouched). -/
def LabelMap.clear (m : LabelMap) : LabelMap := { m with map := [] }

/-- `LabelMap::add_labels`: each label is inserted keyed by its ordinary
hash. -/
def LabelMap.add_labels (m : LabelMap) (labels : List ByteStr) : LabelMap :=
  labels.foldl (fun m l => { m with map := bimapInsert m.map (Hash40.new l) l }) m

/-- `LabelMap::add_custom_labels`: explicit hash/label pairs are inserted,
whether or not the hash matches the label. -/
def LabelMap.add_custom_labels (m : LabelMap) (pairs : List (Hash40 × ByteStr)) :
    LabelMap :=
  pairs.foldl (fun m p => { m with map := bimapInsert m.map p.1 p.2 }) m

/-- `LabelMap::label_of`: exact forward lookup. -/
def LabelMap.label_of (m : LabelMap) (h : Hash40) : Option ByteStr :=
  bimapGetByLeft m.map h

/-- `LabelMap::hash_of`: reverse lookup, falling back to the ordinary hash
of the label unless `strict` is set. -/
def LabelMap.hash_of (m : LabelMap) (l : ByteStr) : Option Hash40 :=
  (bimapGetByRight m.map l).orElse
    (fun _ => if m.strict then none else some (hash40 l))

/-- `Hash40::from_label` from `lib.rs`, with the process-wide registry made
an explicit parameter: try `from_hex_str`; on `MissingPrefix` consult the
registry; propagate hex-parse errors directly. -/
def Hash40.from_label (m : LabelMap) (label : ByteStr) :
    Except FromLabelError Hash40 :=
  match Hash40.from_hex_str label with
  | .ok hash => .ok hash
  | .error e =>
    match e with
    | .missingPrefix =>
      match m.hash_of label with
      | some h => .ok h
      | none => .error (.labelNotFound label)
    | .parseError e2 => .error (.parseError e2)

/-! ## Textual rendering (`to_label` and `format!("0x{:010x}", _)`) -/

/-- Lowercase hexadecimal digit byte for a value below 16. -/
def hexDigit (d : Nat) : Byte :=
  ⟨(if d < 10 then 48 + d else 87 + d) % 256, Nat.mod_lt _ (by omega)⟩

/-- Hex digits of `n`, least significant first, with fuel (64 digits cover
every `u64`, far beyond the 16-digit worst case). -/
def toHexRevAux : Nat → Nat → List Byte
  | 0, _ => []
  | fuel + 1, n =>
    if n = 0 then [] else hexDigit (n % 16) :: toHexRevAux fuel (n / 16)

def toHexRev (n : Nat) : List Byte := toHexRevAux 64 n

/-- Rust `format!("{:010x}", n)`: the hex digits of `n`, zero-padded on the
left to a minimum width of 10. -/
def hexFmt10 (n : Nat) : ByteStr :=
  List.replicate (10 - (toHexRev n).reverse.length) (⟨48, by omega⟩ : Byte) ++
    (toHexRev n).reverse

/-- `Hash40::to_label` from `lib.rs`, registry explicit: the label when one
is mapped, otherwise `format!("0x{:010x}", self.0)` on the full backing
value. -/
def Hash40.to_label (m : LabelMap) (h : Hash40) : ByteStr :=
  (m.label_of h).getD (([48, 120] : ByteStr) ++ hexFmt10 h.val)

/-- The canonical fallback text exactly as the spec words it: `0x` followed
by exactly 10 lowercase zero-padded hex digits of the LOW 40 BITS of the
value, higher bits masked off before formatting. Stated from the spec for
comparison with `Hash40.to_label`. -/
def specHexRender (h : Hash40) : ByteStr :=
  ([48, 120] : ByteStr) ++
    (List.replicate (10 - (toHexRev (h.val % 2 ^ 40)).reverse.length)
      (⟨48, by omega⟩ : Byte) ++ (toHexRev (h.val % 2 ^ 40)).reverse)

/-! ## Binary encoding (`read_hash40` / `write_hash40`, `byteorder`) -/

/-- The caller-selected byte order of the `byteorder` crate. -/
inductive ByteOrder where
  | le
  | be
deriving DecidableEq, Repr

def mkByte (n : Nat) : Byte := ⟨n % 256, Nat.mod_lt _ (by omega)⟩

/-- The eight bytes of a `u64`, least significant first. -/
def u64ToBytesLE (n : Nat) : ByteStr :=
  [mkByte n, mkByte (n >>> 8), mkByte (n >>> 16), mkByte (n >>> 24),
   mkByte (n >>> 32), mkByte (n >>> 40), mkByte (n >>> 48), mkByte (n >>> 56)]

def u64ToBytes : ByteOrder → Nat → ByteStr
  | .le, n => u64ToBytesLE n
  | .be, n => (u64ToBytesLE n).reverse

def bytesToU64LE (l : ByteStr) : Nat :=
  l.foldr (fun b acc => acc * 256 + b.val) 0

def bytesToU64 : ByteOrder → ByteStr → Nat
  | .le, l => bytesToU64LE l
  | .be, l => bytesToU64LE l.reverse

/-- `read_hash40` from `lib.rs`: consume 8 bytes as a `u64` in the given
byte order and mask to the low 40 bits (`& 0xff_ffff_ffff`). Returns the
hash and the rest of the stream; fails when fewer than 8 bytes remain. -/
def read_hash40 (bo : ByteOrder) (stream : ByteStr) : Option (Hash40 × ByteStr) :=
  if 8 ≤ stream.length then
    some (⟨bytesToU64 bo (stream.take 8) &&& 0xffffffffff⟩, stream.drop 8)
  else none

/-- `write_hash40` from `lib.rs`: write the 64-bit backing value as-is. -/
def write_hash40 (bo : ByteOrder) (h : Hash40) : ByteStr :=
  u64ToBytes bo h.val

/-! ## Arithmetic helpers for the packed layout -/

theorem lor_pack (L c : Nat) (hc : c < 2 ^ 32) :
    (L <<< 32) ||| c = 2 ^ 32 * L + c := by
  rw [Nat.shiftLeft_eq, Nat.mul_comm, ← Nat.mul_add_lt_is_or hc]

theorem lor_pack_comm (L c : Nat) (hc : c < 2 ^ 32) :
    c ||| (L <<< 32) = 2 ^ 32 * L + c := by
  rw [Nat.lor_comm, lor_pack L c hc]

theorem pack_hi (L c : Nat) (hc : c < 2 ^ 32) (hL : L < 256) :
    ((2 ^ 32 * L + c) >>> 32) % 256 = L := by
  rw [Nat.shiftRight_eq_div_pow]
  have h32 : (2 : Nat) ^ 32 = 4294967296 := by norm_num
  rw [h32] at hc ⊢
  omega

theorem pack_lo (L c : Nat) (hc : c < 2 ^ 32) :
    (2 ^ 32 * L + c) % 2 ^ 32 = c := by
  have h32 : (2 : Nat) ^ 32 = 4294967296 := by norm_num
  rw [h32] at hc ⊢
  omega

/-! ## Bounds for the CRC registers -/

theorem step1_lt {r : Nat} (h : r < 2 ^ 32) : step1 r < 2 ^ 32 := by
  have hdiv : r >>> 1 < 2 ^ 32 := by
    rw [Nat.shiftRight_eq_div_pow]
    exact Nat.lt_of_le_of_lt (Nat.div_le_self _ _) h
  unfold step1
  split
  · exact Nat.xor_lt_two_pow hdiv (by norm_num)
  · exact hdiv

theorem iterate_step1_lt (n : Nat) {r : Nat} (h : r < 2 ^ 32) :
    step1^[n] r < 2 ^ 32 := by
  induction n generalizing r with
  | zero => exact h
  | succ n ih => rw [Function.iterate_succ_apply]; exact ih (step1_lt h)

theorem byteStep_lt {r : Nat} (h : r < 2 ^ 32) : byteStep r < 2 ^ 32 :=
  iterate_step1_lt 8 h

theorem crcShift_lt {c : Nat} (n : Nat) (h : c < 2 ^ 32) :
    crcShift c n < 2 ^ 32 := by
  induction n generalizing c with
  | zero => exact h
  | succ n ih =>
    rw [crcShift, Function.iterate_succ_apply]
    exact ih (byteStep_lt h)

theorem crcUpd_lt {r : Nat} (h : r < 2 ^ 32) (b : Byte) : crcUpd r b < 2 ^ 32 := by
  unfold crcUpd
  exact byteStep_lt (Nat.xor_lt_two_pow h (by have := b.isLt; omega))

theorem foldl_crcUpd_lt (d : ByteStr) {r : Nat} (h : r < 2 ^ 32) :
    d.foldl crcUpd r < 2 ^ 32 := by
  induction d generalizing r with
  | nil => exact h
  | cons b d ih => exact ih (crcUpd_lt h b)

theorem crc32_lt (s : ByteStr) : crc32 s < 2 ^ 32 :=
  Nat.xor_lt_two_pow (by norm_num) (foldl_crcUpd_lt s (by norm_num))

theorem stepM_lt (r : Nat) : stepM r < 2 ^ 32 := by
  have hand : (r <<< 1) &&& 0xFFFFFFFF < 2 ^ 32 :=
    Nat.and_lt_two_pow _ (by norm_num)
  unfold stepM
  split
  · exact hand
  · exact Nat.xor_lt_two_pow hand (by norm_num)

theorem cksumUpd_lt (r : Nat) (b : Byte) : cksumUpd r b < 2 ^ 32 := by
  unfold cksumUpd
  rw [show (8 : Nat) = 7 + 1 from rfl, Function.iterate_succ_apply']
  exact stepM_lt _

theorem foldl_cksumUpd_lt (d : ByteStr) {r : Nat} (h : r < 2 ^ 32) :
    d.foldl cksumUpd r < 2 ^ 32 := by
  induction d generalizing r with
  | nil => exact h
  | cons b d ih => exact ih (cksumUpd_lt r b)

theorem crc32Cksum_lt (s : ByteStr) : crc32Cksum s < 2 ^ 32 :=
  Nat.xor_lt_two_pow (by norm_num) (foldl_cksumUpd_lt s (by norm_num))

/-! ## GF(2)-linearity of the IEEE CRC steps -/

theorem xor_xor_cancel (x y p : Nat) : (x ^^^ p) ^^^ (y ^^^ p) = x ^^^ y := by
  rw [Nat.xor_assoc, Nat.xor_comm p (y ^^^ p), Nat.xor_assoc y p p,
    Nat.xor_self, Nat.xor_zero]

theorem xor_left_comm (a b c : Nat) : a ^^^ (b ^^^ c) = b ^^^ (a ^^^ c) := by
  rw [← Nat.xor_assoc, Nat.xor_comm a b, Nat.xor_assoc]

theorem step1_xor (a b : Nat) : step1 (a ^^^ b) = step1 a ^^^ step1 b := by
  have hm : (a ^^^ b) % 2 = (a % 2) ^^^ (b % 2) := by
    have h := @Nat.and_xor_distrib_right a b 1
    simpa [Nat.and_one_is_mod] using h
  have hdiv : (a ^^^ b) >>> 1 = (a >>> 1) ^^^ (b >>> 1) := by
    have h1 : ∀ x : Nat, x >>> 1 = x / 2 := fun x => Nat.shiftRight_succ x 0
    rw [h1, h1, h1, Nat.xor_div_two]
  rcases Nat.mod_two_eq_zero_or_one a with ha | ha <;>
    rcases Nat.mod_two_eq_zero_or_one b with hb | hb <;>
      simp [step1, Nat.and_one_is_mod, ha, hb, hm, hdiv, xor_xor_cancel,
        Nat.xor_assoc, Nat.xor_comm, xor_left_comm]

theorem iterate_step1_xor (n a b : Nat) :
    step1^[n] (a ^^^ b) = step1^[n] a ^^^ step1^[n] b := by
  induction n generalizing a b with
  | zero => rfl
  | succ n ih =>
    rw [Function.iterate_succ_apply, Function.iterate_succ_apply,
      Function.iterate_succ_apply, step1_xor, ih]

theorem byteStep_xor (a b : Nat) : byteStep (a ^^^ b) = byteStep a ^^^ byteStep b :=
  iterate_step1_xor 8 a b

theorem crcUpd_xor (r s : Nat) (b : Byte) :
    crcUpd (r ^^^ s) b = crcUpd r b ^^^ byteStep s := by
  unfold crcUpd
  rw [Nat.xor_comm r s, Nat.xor_assoc, Nat.xor_comm s (r ^^^ b.val), byteStep_xor]

theorem crcShift_succ (s : Nat) (n : Nat) :
    crcShift (byteStep s) n = crcShift s (n + 1) := by
  unfold crcShift
  rw [Function.iterate_succ_apply]

/-- The CRC byte-fold is affine: xoring `s` into the start register xors the
result with `s` advanced by the length of the remaining input. -/
theorem foldl_crcUpd_xor (d : ByteStr) :
    ∀ r s : Nat, d.foldl crcUpd (r ^^^ s) = d.foldl crcUpd r ^^^ crcShift s d.length := by
  induction d with
  | nil => intro r s; simp [crcShift]
  | cons b d ih =>
    intro r s
    simp only [List.foldl_cons, List.length_cons]
    rw [crcUpd_xor, ih, crcShift_succ]

theorem foldl_crcUpd_from (a b : ByteStr) :
    b.foldl crcUpd (a.foldl crcUpd 0xFFFFFFFF) =
      b.foldl crcUpd 0xFFFFFFFF ^^^ crcShift (crc32 a) b.length := by
  have h : a.foldl crcUpd 0xFFFFFFFF = 0xFFFFFFFF ^^^ crc32 a := by
    unfold crc32
    rw [← Nat.xor_assoc, Nat.xor_self, Nat.zero_xor]
  rw [h, foldl_crcUpd_xor]

/-- The key CRC concatenation identity for the IEEE variant: because init
and xorout coincide (both 0xFFFFFFFF), the CRC of `a ++ b` is the CRC of
`b` xored with the CRC of `a` advanced by the length of `b`. -/
theorem crc32_append (a b : ByteStr) :
    crc32 (a ++ b) = crc32 b ^^^ crcShift (crc32 a) b.length := by
  show 0xFFFFFFFF ^^^ (a ++ b).foldl crcUpd 0xFFFFFFFF = _
  rw [List.foldl_append, foldl_crcUpd_from, ← Nat.xor_assoc]
  rfl

theorem hash40_val (s : ByteStr) :
    (hash40 s).val = 2 ^ 32 * (s.length % 256) + crc32 s := by
  show ((s.length % 256) <<< 32) ||| crc32 s = _
  exact lor_pack _ _ (crc32_lt s)

/-! ## Layout of the `impl.rs` hash -/

theorem newCksum_val (s : ByteStr) :
    (ImplRs.Hash40.new s).val = 2 ^ 32 * (s.length % 256) + crc32Cksum s :=
  lor_pack_comm (s.length % 256) (crc32Cksum s) (crc32Cksum_lt s)

theorem newCksum_str_len (s : ByteStr) :
    (ImplRs.Hash40.new s).str_len = s.length % 256 := by
  show ((ImplRs.Hash40.new s).val >>> 32) % 256 = _
  rw [newCksum_val]
  exact pack_hi _ _ (crc32Cksum_lt s) (Nat.mod_lt _ (by omega))

/-- C4 (amended): hashing is deterministic, and the packed length field is
the byte length reduced mod 256 (so lengths at and above 256 alias), not
`min(len, 255)`. -/
theorem claimC4_amended (s : ByteStr) :
    ImplRs.Hash40.new s = ImplRs.Hash40.new s ∧
      (ImplRs.Hash40.new s).str_len = s.length % 256 :=
  ⟨rfl, newCksum_str_len s⟩

/-- C4 counterexample: for a 256-byte string the length field is
`256 % 256 = 0`, not `min 256 255 = 255` as the claim states. -/
theorem claimC4_cex :
    (ImplRs.Hash40.new (List.replicate 256 (97 : Byte))).str_len ≠
      min (List.replicate 256 (97 : Byte)).length 255 := by
  rw [newCksum_str_len]
  simp only [List.length_replicate]
  decide

/-! ## Binary round trip -/

theorem bytesToU64LE_u64ToBytesLE (n : Nat) (hn : n < 2 ^ 64) :
    bytesToU64LE (u64ToBytesLE n) = n := by
  simp only [u64ToBytesLE, bytesToU64LE, mkByte, List.foldr_cons, List.foldr_nil,
    Nat.shiftRight_eq_div_pow]
  have h64 : (2 : Nat) ^ 64 = 18446744073709551616 := by norm_num
  have h8 : (2 : Nat) ^ 8 = 256 := by norm_num
  have h16 : (2 : Nat) ^ 16 = 65536 := by norm_num
  have h24 : (2 : Nat) ^ 24 = 16777216 := by norm_num
  have h32 : (2 : Nat) ^ 32 = 4294967296 := by norm_num
  have h40 : (2 : Nat) ^ 40 = 1099511627776 := by norm_num
  have h48 : (2 : Nat) ^ 48 = 281474976710656 := by norm_num
  have h56 : (2 : Nat) ^ 56 = 72057594037927936 := by norm_num
  rw [h8, h16, h24, h32, h40, h48, h56]
  rw [h64] at hn
  omega

theorem u64ToBytes_length (bo : ByteOrder) (n : Nat) : (u64ToBytes bo n).length = 8 := by
  cases bo <;> simp [u64ToBytes, u64ToBytesLE]

theorem bytesToU64_u64ToBytes (bo : ByteOrder) (n : Nat) (hn : n < 2 ^ 64) :
    bytesToU64 bo (u64ToBytes bo n) = n := by
  cases bo with
  | le => exact bytesToU64LE_u64ToBytesLE n hn
  | be =>
    show bytesToU64LE (u64ToBytesLE n).reverse.reverse = n
    rw [List.reverse_reverse]
    exact bytesToU64LE_u64ToBytesLE n hn

/-- C3 (amended): the write/read round trip over either byte order returns
the hash unchanged PROVIDED the value occupies only its low 40 bits;
`read_hash40` masks with `0xff_ffff_ffff`, so higher bits do not survive. -/
theorem claimC3_amended (bo : ByteOrder) (h : Hash40) (hlt : h.val < 2 ^ 40) :
    read_hash40 bo (write_hash40 bo h) = some (h, []) := by
  have hlen : (write_hash40 bo h).length = 8 := u64ToBytes_length bo h.val
  have h64 : h.val < 2 ^ 64 := by
    have hp : (2 : Nat) ^ 40 < 2 ^ 64 := by norm_num
    omega
  unfold read_hash40
  rw [if_pos (by omega)]
  rw [List.take_of_length_le (by omega), List.drop_of_length_le (by omega)]
  rw [show write_hash40 bo h = u64ToBytes bo h.val from rfl,
    bytesToU64_u64ToBytes bo h.val h64]
  have hmask : h.val &&& 0xffffffffff = h.val := by
    have hm : (0xffffffffff : Nat) = 2 ^ 40 - 1 := by norm_num
    rw [hm, Nat.and_pow_two_sub_one_eq_mod, Nat.mod_eq_of_lt hlt]
  rw [hmask]

/-- C3 witness: the round trip at the in-range value 1. -/
theorem claimC3_witness :
    (Hash40.mk 1).val < 2 ^ 40 ∧
      read_hash40 .le (write_hash40 .le ⟨1⟩) = some (⟨1⟩, []) :=
  ⟨by decide, claimC3_amended .le ⟨1⟩ (by decide)⟩

/-- C3 counterexample: at the value `2^40` (bit 40 set) the claimed
unconditional round trip fails: reading back yields the masked value 0. -/
theorem claimC3_cex :
    read_hash40 .le (write_hash40 .le ⟨2 ^ 40⟩) ≠ some (⟨2 ^ 40⟩, ([] : ByteStr)) := by
  decide

/-! ## The two CRC variants present in the code base disagree -/

/-- C8: the two string-hashing routines of the code base diverge.
`Hash40::new` in `impl.rs` uses CRC-32/CKSUM (check value 0x765E7680),
while `crc32_with_len` in `private.rs` uses CRC-32/IEEE (check value
0xCBF43926); already on the empty string they produce 0xFFFFFFFF versus 0. -/
theorem claimC8_eval :
    ImplRs.Hash40.new [] = ⟨0xFFFFFFFF⟩ ∧ crc32_with_len [] = 0 ∧
      (ImplRs.Hash40.new []).val ≠ crc32_with_len [] ∧
      crc32Cksum [49, 50, 51, 52, 53, 54, 55, 56, 57] = 0x765E7680 ∧
      crc32 [49, 50, 51, 52, 53, 54, 55, 56, 57] = 0xCBF43926 := by
  decide

/-! ## Registry scenarios -/

/-- C6 counterexample: after inserting the single custom pair
`(hash40 "x", "not-x")` the reverse lookup of the unrelated label `"y"`
does NOT return none: `strict` is still `false`, so `hash_of` falls back to
hashing the label. -/
theorem claimC6_cex :
    (LabelMap.default.add_custom_labels
        [(hash40 [120], [110, 111, 116, 45, 120])]).hash_of [121] ≠ none := by
  decide

/-- C6 (amended): strictness is governed by the `strict` flag alone, not by
how the map was populated. With `strict = false` (the default, also after
`add_custom_labels`) an unmapped label falls back to its ordinary hash;
with `strict = true` the same lookup returns none. -/
theorem claimC6_amended :
    (LabelMap.default.add_custom_labels
        [(hash40 [120], [110, 111, 116, 45, 120])]).hash_of [121] =
        some (hash40 [121]) ∧
      ({ LabelMap.default.add_custom_labels
          [(hash40 [120], [110, 111, 116, 45, 120])] with strict := true }).hash_of
        [121] = none ∧
      LabelMap.default.hash_of [121] = some (hash40 [121]) := by
  decide

/-- C7 counterexample: after `clear()` the reverse lookup `hash_of "foo"`
does NOT return none: the map is empty but `strict` is still `false`, so
the fallback computes `hash40 "foo"`. -/
theorem claimC7_cex :
    ((LabelMap.default.add_labels [[102, 111, 111], [98, 97, 114]]).clear).hash_of
      [102, 111, 111] ≠ none := by
  decide

/-- C7 (amended): after loading `["foo", "bar"]`, `label_of (hash "foo")`
is `some "foo"` and `hash_of "foo"` is `some (hash "foo")`; after `clear()`
the forward lookup returns none, but the reverse lookup still returns
`some (hash "foo")` through the non-strict fallback. -/
theorem claimC7_amended :
    (LabelMap.default.add_labels [[102, 111, 111], [98, 97, 114]]).label_of
        (hash40 [102, 111, 111]) = some [102, 111, 111] ∧
      (LabelMap.default.add_labels [[102, 111, 111], [98, 97, 114]]).hash_of
        [102, 111, 111] = some (hash40 [102, 111, 111]) ∧
      ((LabelMap.default.add_labels [[102, 111, 111], [98, 97, 114]]).clear).label_of
        (hash40 [102, 111, 111]) = none ∧
      ((LabelMap.default.add_labels [[102, 111, 111], [98, 97, 114]]).clear).hash_of
        [102, 111, 111] = some (hash40 [102, 111, 111]) := by
  decide

/-! ## The concatenation law -/

/-- C1 (amended): the concatenation law holds whenever the suffix is
shorter than 256 bytes, so that its length byte inside the packed hash is
its true length. -/
theorem claimC1_amended (a b : ByteStr) (hb : b.length < 256) :
    (hash40 a).concat (hash40 b) = hash40 (a ++ b) := by
  have hca := crc32_lt a
  have hcb := crc32_lt b
  have hval : algorithm.hash40_concat (hash40 a).val (hash40 b).val =
      algorithm.hash40 (a ++ b) := by
    rw [hash40_val a, hash40_val b]
    unfold algorithm.hash40_concat algorithm.crc32_concat algorithm.hash40
    rw [pack_hi _ _ hca (Nat.mod_lt _ (by omega)),
      pack_hi _ _ hcb (Nat.mod_lt _ (by omega)),
      pack_lo _ _ hca, pack_lo _ _ hcb]
    rw [crc32_append a b, List.length_append]
    rw [Nat.mod_eq_of_lt hb]
    have hlen : (a.length % 256 + b.length) % 256 = (a.length + b.length) % 256 := by
      omega
    rw [hlen]
  exact congrArg Hash40.mk hval

/-- C1 witness: the law at the concrete strings `"A"` and `"BC"`. -/
theorem claimC1_witness :
    ([66, 67] : ByteStr).length < 256 ∧
      (hash40 [65]).concat (hash40 [66, 67]) = hash40 ([65] ++ [66, 67]) :=
  ⟨by decide, claimC1_amended [65] [66, 67] (by decide)⟩

theorem crcShift_add (c m n : Nat) :
    crcShift c (m + n) = crcShift (crcShift c n) m := by
  unfold crcShift
  exact Function.iterate_add_apply _ m n c

theorem crcShift_zero (c : Nat) : crcShift c 0 = c := rfl

/-- Advancing `crc32 "A"` by 256 byte steps, computed in chunks of 32. -/
theorem crcShift_crcA_256 : crcShift 3554254475 256 = 515445533 := by
  have h1 : crcShift 3554254475 32 = 2219507097 := by decide
  have h2 : crcShift 2219507097 32 = 3183201362 := by decide
  have h3 : crcShift 3183201362 32 = 4142822888 := by decide
  have h4 : crcShift 4142822888 32 = 3064918796 := by decide
  have h5 : crcShift 3064918796 32 = 875049956 := by decide
  have h6 : crcShift 875049956 32 = 4037293708 := by decide
  have h7 : crcShift 4037293708 32 = 1574203424 := by decide
  have h8 : crcShift 1574203424 32 = 515445533 := by decide
  rw [show (256 : Nat) = 224 + 32 from by norm_num, crcShift_add, h1,
    show (224 : Nat) = 192 + 32 from by norm_num, crcShift_add, h2,
    show (192 : Nat) = 160 + 32 from by norm_num, crcShift_add, h3,
    show (160 : Nat) = 128 + 32 from by norm_num, crcShift_add, h4,
    show (128 : Nat) = 96 + 32 from by norm_num, crcShift_add, h5,
    show (96 : Nat) = 64 + 32 from by norm_num, crcShift_add, h6,
    show (64 : Nat) = 32 + 32 from by norm_num, crcShift_add, h7, h8]

/-- C1 counterexample: with the 256-byte suffix `"B" * 256` the suffix
length byte inside the hash is 0, so the CRC correction shifts by 0 instead
of 256 and the law fails at `a = "A"`. -/
theorem claimC1_cex :
    (hash40 [65]).concat (hash40 (List.replicate 256 (66 : Byte))) ≠
      hash40 ([65] ++ List.replicate 256 (66 : Byte)) := by
  have main : ∀ b : ByteStr, b.length = 256 →
      (hash40 [65]).concat (hash40 b) ≠ hash40 ([65] ++ b) := by
    intro b hblen heq
    have hca := crc32_lt [65]
    have hcb := crc32_lt b
    have hv : algorithm.hash40_concat (hash40 [65]).val (hash40 b).val =
        algorithm.hash40 ([65] ++ b) := congrArg Hash40.val heq
    rw [hash40_val, hash40_val] at hv
    unfold algorithm.hash40_concat algorithm.crc32_concat algorithm.hash40 at hv
    rw [pack_hi _ _ hca (Nat.mod_lt _ (by omega)),
      pack_hi _ _ hcb (Nat.mod_lt _ (by omega)),
      pack_lo _ _ hca, pack_lo _ _ hcb] at hv
    rw [crc32_append, List.length_append, hblen] at hv
    -- the 256-byte suffix aliases to length byte 0, so the shift vanishes
    rw [show (256 : Nat) % 256 = 0 from by norm_num, crcShift_zero] at hv
    have hb1 : crc32 b ^^^ crc32 [65] < 2 ^ 32 := Nat.xor_lt_two_pow hcb hca
    have hb2 : crc32 b ^^^ crcShift (crc32 [65]) 256 < 2 ^ 32 :=
      Nat.xor_lt_two_pow hcb (crcShift_lt 256 hca)
    rw [lor_pack _ _ hb1, lor_pack _ _ hb2] at hv
    simp only [List.length_cons, List.length_nil] at hv
    rw [show (2 : Nat) ^ 32 = 4294967296 from by norm_num] at hv
    have hxor : crc32 b ^^^ crc32 [65] =
        crc32 b ^^^ crcShift (crc32 [65]) 256 := by omega
    have hcanc : crc32 [65] = crcShift (crc32 [65]) 256 := by
      have hx := congrArg (fun z => crc32 b ^^^ z) hxor
      simpa [← Nat.xor_assoc, Nat.xor_self, Nat.zero_xor] using hx
    rw [show crc32 [65] = 3554254475 from by decide, crcShift_crcA_256] at hcanc
    exact absurd hcanc (by decide)
  exact main (List.replicate 256 (66 : Byte)) (by simp)

/-! ## Textual rendering -/

theorem toHexRevAux_len_le :
    ∀ (fuel k v : Nat), v < 16 ^ k → (toHexRevAux fuel v).length ≤ k := by
  intro fuel
  induction fuel with
  | zero => intro k v hv; simp [toHexRevAux]
  | succ fuel ih =>
    intro k v hv
    simp only [toHexRevAux]
    split
    · simp
    · rename_i h0
      cases k with
      | zero => rw [pow_zero] at hv; omega
      | succ k =>
        simp only [List.length_cons]
        have hdiv : v / 16 < 16 ^ k := by
          rw [Nat.div_lt_iff_lt_mul (by omega : (0 : Nat) < 16)]
          calc v < 16 ^ (k + 1) := hv
            _ = 16 ^ k * 16 := by rw [pow_succ]
        exact Nat.succ_le_succ (ih k (v / 16) hdiv)

theorem hexFmt10_length (v : Nat) (hv : v < 2 ^ 40) : (hexFmt10 v).length = 10 := by
  have h16 : v < 16 ^ 10 := by
    have he : (16 : Nat) ^ 10 = 2 ^ 40 := by norm_num
    omega
  have hle := toHexRevAux_len_le 64 10 v h16
  simp only [hexFmt10, toHexRev, List.length_append, List.length_replicate,
    List.length_reverse] at *
  omega

/-- C2 counterexample: at the value `2^40` (a bit above the 40-bit window,
unmapped in the registry) `to_label` formats the full backing value rather
than the masked low 40 bits: the output is `0x10000000000` (13 characters),
not the spec-mandated 10-digit masked rendering `0x0000000000`. -/
theorem claimC2_cex :
    LabelMap.default.label_of ⟨2 ^ 40⟩ = none ∧
      Hash40.to_label LabelMap.default ⟨2 ^ 40⟩ ≠ specHexRender ⟨2 ^ 40⟩ := by
  decide

/-- C2 (amended): for an unmapped hash whose backing value already fits in
40 bits, `to_label` renders `0x` followed by exactly 10 zero-padded
lowercase hex digits of the value (and in particular renders 1 as
`0x0000000001`); the code does not mask the value, so this 10-digit form is
only guaranteed below `2^40`. -/
theorem claimC2_amended :
    (∀ (m : LabelMap) (h : Hash40), m.label_of h = none → h.val < 2 ^ 40 →
      Hash40.to_label m h = specHexRender h ∧ (Hash40.to_label m h).length = 12) ∧
      Hash40.to_label LabelMap.default ⟨1⟩ =
        ([48, 120, 48, 48, 48, 48, 48, 48, 48, 48, 48, 49] : ByteStr) := by
  constructor
  · intro m h hnone hlt
    have heq : Hash40.to_label m h = ([48, 120] : ByteStr) ++ hexFmt10 h.val := by
      unfold Hash40.to_label
      rw [hnone]
      rfl
    constructor
    · rw [heq]
      unfold specHexRender hexFmt10
      rw [Nat.mod_eq_of_lt hlt]
    · rw [heq]
      simp only [List.length_append, hexFmt10_length h.val hlt]
      rfl
  · decide

/-- C2 witness: the amended rendering at the unmapped value 1. -/
theorem claimC2_witness :
    LabelMap.default.label_of ⟨1⟩ = none ∧ (Hash40.mk 1).val < 2 ^ 40 ∧
      (Hash40.to_label LabelMap.default ⟨1⟩ = specHexRender ⟨1⟩ ∧
        (Hash40.to_label LabelMap.default ⟨1⟩).length = 12) :=
  ⟨by decide, by decide, claimC2_amended.1 LabelMap.default ⟨1⟩ (by decide) (by decide)⟩

/-! ## Label resolution -/

theorem hash_of_some_of_not_strict (m : LabelMap) (hs : m.strict = false)
    (l : ByteStr) : ∃ h, m.hash_of l = some h := by
  unfold LabelMap.hash_of
  cases ho : bimapGetByRight m.map l with
  | some h2 => exact ⟨h2, rfl⟩
  | none => exact ⟨hash40 l, by simp [Option.orElse, hs]⟩

/-- C5: `from_label` routes exactly as the claim states: a hex-parse
success is returned as-is; a `MissingPrefix` failure falls through to the
registry lookup (some gives the hash, none gives `LabelNotFound`); a
hex-parse error after a present prefix propagates unchanged, for every
registry state. -/
theorem claimC5 (m : LabelMap) (label : ByteStr) :
    (∀ h, Hash40.from_hex_str label = .ok h → Hash40.from_label m label = .ok h) ∧
      (Hash40.from_hex_str label = .error .missingPrefix →
        (∀ h, m.hash_of label = some h → Hash40.from_label m label = .ok h) ∧
          (m.hash_of label = none →
            Hash40.from_label m label = .error (.labelNotFound label))) ∧
      (∀ e, Hash40.from_hex_str label = .error (.parseError e) →
        Hash40.from_label m label = .error (.parseError e)) := by
  refine ⟨?_, ?_, ?_⟩
  · intro h heq
    simp [Hash40.from_label, heq]
  · intro heq
    refine ⟨?_, ?_⟩
    · intro h hh
      simp [Hash40.from_label, heq, hh]
    · intro hn
      simp [Hash40.from_label, heq, hn]
  · intro e heq
    simp [Hash40.from_label, heq]

/-- C5 witness: the three routes at concrete inputs: `"0x12"` parses
directly; `"y"` lacks the marker and resolves through the registry (default
registry: fallback hash; strict empty registry: `LabelNotFound`); `"0xZZ"`
propagates the parse error. -/
theorem claimC5_witness :
    Hash40.from_label LabelMap.default ([48, 120, 49, 50] : ByteStr) = .ok ⟨18⟩ ∧
      Hash40.from_label LabelMap.default ([121] : ByteStr) = .ok (hash40 [121]) ∧
      Hash40.from_label ⟨[], true⟩ ([121] : ByteStr) =
        .error (.labelNotFound [121]) ∧
      Hash40.from_label LabelMap.default ([48, 120, 90, 90] : ByteStr) =
        .error (.parseError .invalidDigit) :=
  ⟨(claimC5 LabelMap.default [48, 120, 49, 50]).1 ⟨18⟩ rfl,
    ((claimC5 LabelMap.default [121]).2.1 rfl).1 (hash40 [121]) rfl,
    ((claimC5 ⟨[], true⟩ [121]).2.1 rfl).2 rfl,
    (claimC5 LabelMap.default [48, 120, 90, 90]).2.2 .invalidDigit rfl⟩

/-- C10: with the registry non-strict (its default), `from_label` can never
return `LabelNotFound`: the `MissingPrefix` branch always resolves through
the `hash_of` fallback, and the other branches return other results. -/
theorem claimC10 (m : LabelMap) (label : ByteStr) (hs : m.strict = false)
    (l : ByteStr) : Hash40.from_label m label ≠ .error (.labelNotFound l) := by
  unfold Hash40.from_label
  cases hfx : Hash40.from_hex_str label with
  | ok h => simp
  | error e =>
    cases e with
    | missingPrefix =>
      obtain ⟨h2, hh2⟩ := hash_of_some_of_not_strict m hs label
      simp [hh2]
    | parseError e2 => simp

/-- C10 witness: at the default registry and the label `"abc"`. -/
theorem claimC10_witness :
    LabelMap.default.strict = false ∧
      Hash40.from_label LabelMap.default ([97, 98, 99] : ByteStr) ≠
        .error (.labelNotFound [97, 98, 99]) :=
  ⟨rfl, claimC10 LabelMap.default [97, 98, 99] rfl [97, 98, 99]⟩

/-- C9: `from_hex_str` is total with the claimed trichotomy:
`MissingPrefix` exactly when the input does not begin with the two bytes
`"0x"` (in particular every input shorter than 2 bytes), a propagated parse
error exactly when the marker is present but the remainder does not parse
as a base-16 `u64`, and success exactly when the remainder parses; with the
three concrete cases of the claim evaluated. -/
theorem claimC9 :
    (∀ value : ByteStr,
      (Hash40.from_hex_str value = .error .missingPrefix ↔
        ¬ value.take 2 = ([48, 120] : ByteStr)) ∧
      (value.length < 2 → Hash40.from_hex_str value = .error .missingPrefix) ∧
      (∀ e, Hash40.from_hex_str value = .error (.parseError e) ↔
        value.take 2 = ([48, 120] : ByteStr) ∧
          parseU64Hex (value.drop 2) = .error e) ∧
      (∀ n, Hash40.from_hex_str value = .ok ⟨n⟩ ↔
        value.take 2 = ([48, 120] : ByteStr) ∧
          parseU64Hex (value.drop 2) = .ok n)) ∧
    Hash40.from_hex_str
        ([48, 120, 48, 48, 48, 48, 48, 48, 48, 48, 48, 48] : ByteStr) = .ok ⟨0⟩ ∧
    Hash40.from_hex_str ([110, 111, 112, 101] : ByteStr) = .error .missingPrefix ∧
    Hash40.from_hex_str ([48, 120, 90, 90] : ByteStr) =
      .error (.parseError .invalidDigit) := by
  refine ⟨?_, rfl, rfl, rfl⟩
  intro value
  by_cases hp : value.take 2 = ([48, 120] : ByteStr)
  · have hlen2 : 2 ≤ value.length := by
      have hc := congrArg List.length hp
      simp [List.length_take] at hc
      omega
    cases hx : parseU64Hex (value.drop 2) with
    | ok n =>
      refine ⟨?_, ?_, ?_, ?_⟩
      · simp [Hash40.from_hex_str, hp, hx]
      · intro hshort; omega
      · intro e; simp [Hash40.from_hex_str, hp, hx]
      · intro n2; simp [Hash40.from_hex_str, hp, hx, Hash40.mk.injEq]
    | error e0 =>
      refine ⟨?_, ?_, ?_, ?_⟩
      · simp [Hash40.from_hex_str, hp, hx]
      · intro hshort; omega
      · intro e; simp [Hash40.from_hex_str, hp, hx]
      · intro n; simp [Hash40.from_hex_str, hp, hx]
  · refine ⟨?_, ?_, ?_, ?_⟩
    · simp [Hash40.from_hex_str, hp]
    · intro hshort; simp [Hash40.from_hex_str, hp]
    · intro e; simp [Hash40.from_hex_str, hp]
    · intro n; simp [Hash40.from_hex_str, hp]

/-- C9 witness: the short input `"0"` (one byte) fails with the defined
`MissingPrefix` error, applying the quantified part of the claim. -/
theorem claimC9_witness :
    ([48] : ByteStr).length < 2 ∧
      Hash40.from_hex_str [48] = .error .missingPrefix :=
  ⟨by decide, (claimC9.1 [48]).2.1 (by decide)⟩
